import Mathlib

/-!
# Emergence — verification of the core algorithms of `src/main.py`

Shallow embedding of the chaos-game attractor generator and the hexagon
tile-placement loop.  The Python `random` module is modelled by an explicit
stream of natural-number draws (`List Nat`); every possible sequence of
in-range outcomes of `random.randint(0, n-1)` is represented by taking each
stream entry modulo `n`.  Unbounded rejection-sampling `while` loops become
structurally recursive functions on the remaining stream; a run that needs
more randomness than the stream holds returns `none` / `.error .streamExhausted`
(an artifact of the finite-stream model, distinct from the `OutOfRange`
exception the program itself raises).  Python floats are idealised as exact
rationals; the placement step, whose ideal value lives in `ℚ + ℚ·√3`, is
carried in the computable quadratic-extension representation `Q3`, whose
floor function is proved correct against the corresponding real number.
-/

namespace Emergence

/-- A 2D point; pairs of Python floats idealised as exact rationals. -/
abbrev Point := ℚ × ℚ

/-- The fixed-size list of 5 booleans built by `[randBool() for i in
range(numRules)]` with `numRules = 5` (`src/main.py:74`, `src/main.py:220`). -/
structure RuleSet where
  r0 : Bool
  r1 : Bool
  r2 : Bool
  r3 : Bool
  r4 : Bool
deriving DecidableEq, Repr

/-- The constant `numRules = 5` (`src/main.py:74`). -/
def numRules : Nat := 5

/-- Outcomes of `chooseNext` other than a normal return: `outOfRange` is the
`raise Exception` of `src/main.py:162`; `streamExhausted` is the finite-stream
model running out of random draws inside a rejection loop (no Python
counterpart: there the loop would just keep drawing). -/
inductive ChooseErr where
  | outOfRange
  | streamExhausted
deriving DecidableEq, Repr

/-- One call of `random.randint(0, n-1)`: consume the next stream entry,
reduced `mod n` so that every in-range outcome sequence is represented. -/
def draw (n : Nat) : List Nat → Option (Nat × List Nat)
  | [] => none
  | d :: rest => some (d % n, rest)

/-- The Python loop `while pointIndex == forbidden: pointIndex =
random.randint(0, len(points)-1)` (`src/main.py:169-170` and the three
analogous loops below it): keep drawing while the current candidate equals
the forbidden value. -/
def drawWhileEq (n : Nat) (forbidden : ℤ) (cur : Nat) (s : List Nat) :
    Option (Nat × List Nat) :=
  if (cur : ℤ) = forbidden then
    match s with
    | [] => none
    | d :: rest => drawWhileEq n forbidden (d % n) rest
  else some (cur, s)

/-- One `if rules[k]: while pointIndex == forbidden: ...` block of
`chooseNext` (`src/main.py:168-179`), threaded through `Option`. -/
def applyRule (n : Nat) (enabled : Bool) (forbidden : ℤ) :
    Option (Nat × List Nat) → Option (Nat × List Nat)
  | none => none
  | some (cur, s) => if enabled then drawWhileEq n forbidden cur s else some (cur, s)

/-- The four sequential rule blocks of `chooseNext` (`src/main.py:167-179`),
in program order: rule 0 first, rule 3 last.  The forbidden values are
exactly those of the code: `prevChoice` for rule 0 and
`(prevChoice % len(points)) + k` for rules 1..3 (the Python `%` on a positive
modulus agrees with `Int.emod`).  The field `r4` is never read, as in the
code. -/
def rulePipeline (n : Nat) (prevChoice : ℤ) (rules : RuleSet)
    (c0 : Nat) (s0 : List Nat) : Option (Nat × List Nat) :=
  applyRule n rules.r3 (prevChoice % (n : ℤ) + 3)
    (applyRule n rules.r2 (prevChoice % (n : ℤ) + 2)
      (applyRule n rules.r1 (prevChoice % (n : ℤ) + 1)
        (applyRule n rules.r0 prevChoice (some (c0, s0)))))

/-- The function `chooseNext(points, prevChoice, rules, override)`
(`src/main.py:160-181`).  Only `len(points)` is ever used, so the polygon is
passed as its vertex count `n`; `prevChoice` is a Python `int`, hence `ℤ`.
Mirrors the code line by line: the range check is `prevChoice >= len(points)`
(nothing rejects negative values), one unconditional initial draw, then —
unless `override` — the four rule blocks in sequence, and the final candidate
is returned together with the unconsumed part of the stream. -/
def chooseNext (n : Nat) (prevChoice : ℤ) (rules : RuleSet) (override : Bool)
    (s : List Nat) : Except ChooseErr (Nat × List Nat) :=
  if (n : ℤ) ≤ prevChoice then .error .outOfRange
  else
    match draw n s with
    | none => .error .streamExhausted
    | some (c0, s0) =>
      if override then .ok (c0, s0)
      else
        match rulePipeline n prevChoice rules c0 s0 with
        | none => .error .streamExhausted
        | some (idx, s') => .ok (idx, s')

/-- The function `jumppoint(point1, point2, factor, override)`
(`src/main.py:153-156`): with `override` the factor is reassigned to 2, and
the result is `point1 + (point2 - point1)/factor` componentwise. -/
def jumppoint (point1 point2 : Point) (factor : ℚ) (override : Bool) : Point :=
  let f := if override then 2 else factor
  (point1.1 + (point2.1 - point1.1) / f, point1.2 + (point2.2 - point1.2) / f)

/-- The per-cell state of class `Hex` that `genPoints` reads and writes
(`src/main.py:82-129`): the inner polygon, rule set, jump factor, the
triangle override flag, the current point, the growing point list and the
previously chosen vertex index. -/
structure HexState where
  polyverts : List Point
  rules : RuleSet
  factor : ℚ
  override : Bool
  currentPoint : Point
  points : List Point
  prevChoice : ℤ
deriving DecidableEq, Repr

/-- The iteration count `self.itr = 5000` (`src/main.py:87`). -/
def hexItr : Nat := 5000

/-- The fixed 2-point seed `self.points = [(0, 0), (0, 0)]`
(`src/main.py:89`). -/
def initPoints : List Point := [(0, 0), (0, 0)]

/-- The initial state set up by `Hex.__init__` (`src/main.py:87-116`) for a
given inner polygon, rule set and jump factor: the 2-point seed,
`currentPoint = (0, 0)`, `prevChoice = 0`, and `override` true exactly when
the inner polygon is a triangle (`src/main.py:115`). -/
def initHexState (polyverts : List Point) (rules : RuleSet) (factor : ℚ) :
    HexState :=
  { polyverts := polyverts, rules := rules, factor := factor,
    override := polyverts.length == 3, currentPoint := (0, 0),
    points := initPoints, prevChoice := 0 }

/-- One iteration of the loop body of `Hex.genPoints` (`src/main.py:124-129`):
choose the next vertex, jump toward it, append the new point, and update the
current point and previous choice.  An out-of-range vertex access would be a
Python exception, modelled by `none` (it never happens: `chooseNext` returns
indices below the vertex count). -/
def genStep (st : HexState) (s : List Nat) : Option (HexState × List Nat) :=
  match chooseNext st.polyverts.length st.prevChoice st.rules st.override s with
  | .error _ => none
  | .ok (newVert, s') =>
    match st.polyverts.get? newVert with
    | none => none
    | some v =>
      let pnt := jumppoint (v.1, v.2) st.currentPoint st.factor st.override
      let st' : HexState :=
        { st with
          points := st.points ++ [pnt]
          currentPoint := pnt
          prevChoice := (newVert : ℤ) }
      some (st', s')

/-- The method `Hex.genPoints` (`src/main.py:123-129`): run the loop body
`itr` times (`for i in range(self.itr)`). -/
def genPoints : Nat → HexState → List Nat → Option (HexState × List Nat)
  | 0, st, s => some (st, s)
  | itr + 1, st, s =>
    match genStep st s with
    | none => none
    | some (st', s') => genPoints itr st' s'

/-- A concrete triangle cell (override mode, factor 2, all rules off), shared
by the concrete runs below. -/
def triHex : HexState :=
  initHexState [(0, 0), (1, 0), (0, 1)] ⟨false, false, false, false, false⟩ 2

/-- The radius constant `Hex.r = 100` (`src/main.py:80`). -/
def hexR : ℚ := 100

/-- The cell diameter `Hex.d = 2.5 * r = 250` (`src/main.py:81`), as it
stands while the placement loop runs (the zoom keys that later mutate it run
only after placement is finished). -/
def hexD : ℚ := 2.5 * hexR

/-- A number `a + b·√3` with rational `a`, `b`: the exact value of
`coordinate + Hex.d*cos(angle)` (and the `sin` analogue) for the six hexagon
angles of `src/main.py:70`, carried exactly where Python computes a floating
point approximation. -/
structure Q3 where
  a : ℚ
  b : ℚ
deriving DecidableEq, Repr

/-- Fuel-bounded upward search for the integer square root: the largest `m ≤
k + fuel` with `m² ≤ n`, starting from a `k` with `k² ≤ n`.  Used instead of
`Nat.sqrt` so that concrete instances reduce by `decide`. -/
def isqrtAux (n : Nat) : Nat → Nat → Nat
  | 0, k => k
  | fuel + 1, k => if (k + 1) * (k + 1) ≤ n then isqrtAux n fuel (k + 1) else k

/-- Integer square root: the largest `m` with `m² ≤ n` (proved in
`isqrt_spec` below). -/
def isqrt (n : Nat) : Nat := isqrtAux n n 0

/-- Floor of `a + b·√3`, computed exactly: writing the value over the common
denominator `D = a.den * b.den` as `(M ± √K)/D` with `K = 3·(|b.num|·a.den)²`,
its floor is `(M + ⌊√K⌋).fdiv D` — respectively `(M − ⌊√K⌋ − 1).fdiv D` when
`b < 0`, where `√K` is not a natural number because `3·m²` is never a nonzero
perfect square.  Proved correct against the real number `a + b·√3` in
`Q3.floor_le` and `Q3.lt_floor_add_one` below. -/
def Q3.floor (x : Q3) : ℤ :=
  if 0 ≤ x.b.num then
    (x.a.num * (x.b.den : ℤ)
        + (isqrt (3 * (x.b.num.natAbs * x.a.den) ^ 2) : ℤ)).fdiv
      ((x.a.den : ℤ) * (x.b.den : ℤ))
  else
    (x.a.num * (x.b.den : ℤ)
        - (isqrt (3 * (x.b.num.natAbs * x.a.den) ^ 2) : ℤ) - 1).fdiv
      ((x.a.den : ℤ) * (x.b.den : ℤ))

/-- The Python builtin `int()` applied to the real number `a + b·√3`:
truncation toward zero, i.e. floor for nonnegative values and ceiling for
negative ones. -/
def Q3.trunc (x : Q3) : ℤ :=
  if 0 ≤ x.floor then x.floor else - (Q3.floor ⟨-x.a, -x.b⟩)

/-- The real number a `Q3` value stands for: `a + b·√3`. -/
noncomputable def Q3.toReal (x : Q3) : ℝ := (x.a : ℝ) + (x.b : ℝ) * Real.sqrt 3

/-- The six step vectors `(Hex.d*cos(angle), Hex.d*sin(angle))` for
`angles = [π/6, π/2, 5π/6, 7π/6, 3π/2, 11π/6]` (`src/main.py:70`,
`src/main.py:191-192`), exactly: with `Hex.d = 250` the components are
`±125·√3` (written `Q3.mk 0 (±125)`), `±125`, `0` and `±250`. -/
def angleSteps : List (Q3 × Q3) :=
  [ (⟨0, 125⟩, ⟨125, 0⟩),
    (⟨0, 0⟩, ⟨250, 0⟩),
    (⟨0, -125⟩, ⟨125, 0⟩),
    (⟨0, -125⟩, ⟨-125, 0⟩),
    (⟨0, 0⟩, ⟨-250, 0⟩),
    (⟨0, 125⟩, ⟨-125, 0⟩) ]

/-- The function `intTuple` (`src/main.py:196-197`): truncate both
components to integers. -/
def intTuple (t : Q3 × Q3) : Point := (((t.1.trunc : ℤ) : ℚ), ((t.2.trunc : ℤ) : ℚ))

/-- The function `chooseNextSpot(prevCoords)` (`src/main.py:190-193`), with
the `random.choice(angles)` draw passed as the chosen angle index `k < 6`:
`intTuple((prev[0] + Hex.d*cos(angle), prev[1] + Hex.d*sin(angle)))`. -/
def chooseNextSpot (prevCoords : Point) (k : Nat) : Point :=
  let step := angleSteps.getD k (⟨0, 0⟩, ⟨0, 0⟩)
  intTuple (⟨prevCoords.1 + step.1.a, step.1.b⟩, ⟨prevCoords.2 + step.2.a, step.2.b⟩)

/-- The collision test `sorta = lambda l, r: (abs(l[0] - r[0]) < 10) and
(abs(l[1] - r[1]) < 10)` (`src/main.py:202`). -/
def sorta (l r : Point) : Bool :=
  decide (|l.1 - r.1| < 10) && decide (|l.2 - r.2| < 10)

/-- The candidate-redraw loop (`src/main.py:204-213`): while the candidate
collides with any already placed anchor, redraw a fresh random direction from
the same previous anchor `coords[-1]`. -/
def findSpot (coords : List Point) (prev : Point) (c : Point) (s : List Nat) :
    Option (Point × List Nat) :=
  if coords.any (fun x => sorta x c) then
    match s with
    | [] => none
    | d :: rest => findSpot coords prev (chooseNextSpot prev (d % 6)) rest
  else some (c, s)

/-- The module-level placement loop body (`src/main.py:200-217`), run `n`
times (the code draws `n = random.randint(7, 15)` additional anchors): pick a
random direction from the last anchor, redraw while colliding, append the
accepted candidate, and stop early if it left the
`[0, width] × [0, height]` view. -/
def planLoop (width height : ℚ) :
    Nat → List Point → List Nat → Option (List Point × List Nat)
  | 0, coords, s => some (coords, s)
  | n + 1, coords, s =>
    match s with
    | [] => none
    | d :: rest =>
      match findSpot coords (coords.getLastD (0, 0))
          (chooseNextSpot (coords.getLastD (0, 0)) (d % 6)) rest with
      | none => none
      | some (c, s') =>
        if decide (c.1 > width) || decide (c.1 < 0) ||
            decide (c.2 > height) || decide (c.2 < 0) then some (coords ++ [c], s')
        else planLoop width height n (coords ++ [c]) s'

/-- The whole placement computation: start from the seed anchor
`coords = [(width/2 - 400, height/2 - 400)]` (`src/main.py:75` — the seed is
an arbitrary parameter here because the screen size is external) and run the
loop for the drawn count `n`. -/
def plan (width height : ℚ) (seed : Point) (n : Nat) (s : List Nat) :
    Option (List Point × List Nat) :=
  planLoop width height n [seed] s

/-- Relation between consecutive anchors: the second arises from the first by
one placement step, i.e. it is `chooseNextSpot` of the first for one of the
six angle indices. -/
def PlacedStep (a b : Point) : Prop := ∃ k, k < 6 ∧ b = chooseNextSpot a k

/-- An RGB color with channels in `[0, 1]`, as represented by the external
`colour` library. -/
structure Color where
  red : ℚ
  green : ℚ
  blue : ℚ
deriving DecidableEq, Repr

/-- The six named colors of `src/main.py:54-61`; the channel values are the
constants the external `colour` library assigns to these names (their exact
values are irrelevant to the claims proved here). -/
def colors : List Color :=
  [ ⟨1, 0, 0⟩,
    ⟨1, 165/255, 0⟩,
    ⟨1, 1, 0⟩,
    ⟨0, 128/255, 0⟩,
    ⟨0, 0, 1⟩,
    ⟨128/255, 0, 128/255⟩ ]

/-- Modelled from the spec: `colour.Color.range_to(other, n)` is an external
library call missing from `src/`; the spec treats gradient construction as a
black box "producing an ordered palette of N colors from two endpoint colors"
(spec, OUT OF SCOPE paragraph).  Modelled as the `n` linearly interpolated
colors from `c1` to `c2`. -/
def rangeTo (c1 c2 : Color) (n : Nat) : List Color :=
  (List.range n).map (fun (i : Nat) =>
    let t : ℚ := if n ≤ 1 then 0 else (i : ℚ) / ((n : ℚ) - 1)
    { red := c1.red + (c2.red - c1.red) * t,
      green := c1.green + (c2.green - c1.green) * t,
      blue := c1.blue + (c2.blue - c1.blue) * t })

/-- The function `genGradient()` (`src/main.py:148-150`):
`colors[randint(0, len(colors)-1)].range_to(colors[randint(0, len(colors)-1)],
255)`, with the two random draws taken from the stream. -/
def genGradient (s : List Nat) : Option (List Color × List Nat) :=
  match draw colors.length s with
  | none => none
  | some (i1, s1) =>
    match draw colors.length s1 with
    | none => none
    | some (i2, s2) =>
      some (rangeTo (colors.getD i1 ⟨0, 0, 0⟩) (colors.getD i2 ⟨0, 0, 0⟩) 255, s2)

/-- The Python builtin `int(x)` on a float value, idealised on rationals:
truncation toward zero. -/
def ratTrunc (q : ℚ) : ℤ := q.num.tdiv (q.den : ℤ)

/-- The palette index computed by `Hex.drawNext` (`src/main.py:131-144`):
`int(i[index]) % 255`, where `index = random.choice([0, 1])` picks one of the
two coordinates of the point (modelled by the parity of the stream draw).
The Python `%` on the positive modulus 255 agrees with `Int.emod`. -/
def paletteIndex (p : Point) (choice : Nat) : ℤ :=
  ratTrunc (if choice % 2 = 0 then p.1 else p.2) % 255

end Emergence

/-!
## Theorems

The `unseal` makes the `@[irreducible]` rational operations reducible again,
so that concrete runs of the embedded functions evaluate by `decide`.
-/

unseal Rat.add Rat.sub Rat.mul Rat.inv Rat.ofScientific

namespace Emergence

theorem drawWhileEq_ne (n : Nat) (f : ℤ) (s : List Nat) :
    ∀ (cur idx : Nat) (s' : List Nat),
      drawWhileEq n f cur s = some (idx, s') → (idx : ℤ) ≠ f := by
  induction s with
  | nil =>
    intro cur idx s' h
    unfold drawWhileEq at h
    split at h
    · simp at h
    · rename_i hne
      simp only [Option.some.injEq, Prod.mk.injEq] at h
      rw [← h.1]
      exact hne
  | cons d rest ih =>
    intro cur idx s' h
    unfold drawWhileEq at h
    split at h
    · exact ih (d % n) idx s' h
    · rename_i hne
      simp only [Option.some.injEq, Prod.mk.injEq] at h
      rw [← h.1]
      exact hne

theorem applyRule_some (n : Nat) (e : Bool) (f : ℤ) (o : Option (Nat × List Nat))
    (idx : Nat) (s' : List Nat) (h : applyRule n e f o = some (idx, s')) :
    ∃ c s, o = some (c, s) := by
  cases o with
  | none => simp [applyRule] at h
  | some p => exact ⟨p.1, p.2, rfl⟩

theorem applyRule_true_ne (n : Nat) (f : ℤ) (c : Nat) (s : List Nat)
    (idx : Nat) (s' : List Nat)
    (h : applyRule n true f (some (c, s)) = some (idx, s')) : (idx : ℤ) ≠ f := by
  simp only [applyRule, if_true] at h
  exact drawWhileEq_ne n f s c idx s' h

theorem applyRule_false (n : Nat) (f : ℤ) (o : Option (Nat × List Nat)) :
    applyRule n false f o = o := by
  cases o with
  | none => rfl
  | some p =>
    obtain ⟨c, s⟩ := p
    rfl

/-- **C1** (code bug): with `override = false` the index returned by
`chooseNext` CAN be forbidden by an enabled rule, contrary to the claim.
Two concrete runs show the two defects.  First run: on a 3-gon with
`prevChoice = 2` and only rule 1 enabled, the code forbids
`(2 % 3) + 1 = 3` — a value no index ever equals, because the intended
wrap-around `(2 + 1) mod 3 = 0` is not taken — so the first draw 0 is
returned even though index 0 is one place counter-clockwise of the previous
vertex.  Second run: on a 6-gon with `prevChoice = 0` and rules 0 and 1
enabled, the initial draw 0 is rejected by the rule-0 loop, the redraw 1 is
rejected by the rule-1 loop, and that redraw lands back on 0 = `prevChoice`,
which is returned because the rule-0 loop has already finished. -/
theorem chooseNext_returns_forbidden_index :
    (chooseNext 3 2 ⟨false, true, false, false, false⟩ false [0] = .ok (0, [])
      ∧ (2 + 1) % 3 = 0)
    ∧ chooseNext 6 0 ⟨true, true, false, false, false⟩ false [0, 1, 0] = .ok (0, []) :=
  ⟨⟨rfl, rfl⟩, rfl⟩

/-- **C5** (counterexample): `prevChoice = -1` is not a valid index of a
3-vertex polygon, yet `chooseNext` returns normally — the code only checks
`prevChoice >= len(points)` — refuting the claim that it fails with
`OutOfRange` exactly on the invalid indices. -/
theorem chooseNext_negative_prevChoice_returns :
    chooseNext 3 (-1) ⟨true, true, true, true, true⟩ false [0] = .ok (0, [])
      ∧ ¬ (0 ≤ (-1 : ℤ)) :=
  ⟨rfl, by decide⟩

/-- **C5** (amended): `chooseNext` fails with `OutOfRange` exactly when
`prevChoice ≥ vertexCount`; in particular it returns without that error for
every valid `prevChoice` — and also for every negative one. -/
theorem chooseNext_outOfRange_iff (n : Nat) (prevChoice : ℤ) (rules : RuleSet)
    (override : Bool) (s : List Nat) (hn : 0 < n) :
    chooseNext n prevChoice rules override s = .error .outOfRange
      ↔ (n : ℤ) ≤ prevChoice := by
  unfold chooseNext
  split
  · rename_i hle
    simp [hle]
  · rename_i hgt
    cases hd : draw n s with
    | none => simp [hd, hgt]
    | some p =>
      obtain ⟨c0, s0⟩ := p
      cases override with
      | true => simp [hd, hgt]
      | false =>
        cases hp : rulePipeline n prevChoice rules c0 s0 with
        | none => simp [hd, hp, hgt]
        | some q =>
          obtain ⟨idx, s'⟩ := q
          simp [hd, hp, hgt]

/-- Witness for `chooseNext_outOfRange_iff` at `n = 3`, `prevChoice = 5`. -/
theorem chooseNext_outOfRange_iff_witness :
    chooseNext 3 5 ⟨true, false, true, false, true⟩ false [2] = .error .outOfRange
      ↔ (3 : ℤ) ≤ 5 :=
  chooseNext_outOfRange_iff 3 5 ⟨true, false, true, false, true⟩ false [2] (by decide)

/-- **C9**: the field `rules[4]` is never read by `chooseNext`: two rule sets
that differ only in rule 4 give literally the same computation, returning the
same index and the same remaining stream (identical randomness consumption). -/
theorem chooseNext_ignores_rule4 (n : Nat) (prevChoice : ℤ)
    (a b c d e e' : Bool) (override : Bool) (s : List Nat) :
    chooseNext n prevChoice ⟨a, b, c, d, e⟩ override s
      = chooseNext n prevChoice ⟨a, b, c, d, e'⟩ override s := rfl

/-- **C6**: `jumppoint` with `override = true` uses effective factor 2
whatever factor is supplied — it coincides with the `override = false` call
at factor 2 — and with `override = false` the result is
`point1 + (point2 - point1)/factor`, componentwise. -/
theorem jumppoint_override_factor (point1 point2 : Point) (factor : ℚ) :
    jumppoint point1 point2 factor true
        = (point1.1 + (point2.1 - point1.1) / 2, point1.2 + (point2.2 - point1.2) / 2)
      ∧ jumppoint point1 point2 factor true = jumppoint point1 point2 2 false
      ∧ jumppoint point1 point2 factor false
        = (point1.1 + (point2.1 - point1.1) / factor,
            point1.2 + (point2.2 - point1.2) / factor) :=
  ⟨rfl, rfl, rfl⟩

theorem genStep_points_length (st : HexState) (s : List Nat) (st' : HexState)
    (s' : List Nat) (h : genStep st s = some (st', s')) :
    st'.points.length = st.points.length + 1 := by
  unfold genStep at h
  split at h
  · exact absurd h (by simp)
  · split at h
    · exact absurd h (by simp)
    · simp only [Option.some.injEq, Prod.mk.injEq] at h
      rw [← h.1]
      simp

theorem genPoints_points_length :
    ∀ (itr : Nat) (st : HexState) (s : List Nat) (st' : HexState) (s' : List Nat),
      genPoints itr st s = some (st', s') →
      st'.points.length = st.points.length + itr := by
  intro itr
  induction itr with
  | zero =>
    intro st s st' s' h
    simp only [genPoints, Option.some.injEq, Prod.mk.injEq] at h
    rw [← h.1]
    simp
  | succ k ih =>
    intro st s st' s' h
    unfold genPoints at h
    cases hg : genStep st s with
    | none => rw [hg] at h; simp at h
    | some p =>
      obtain ⟨st1, s1⟩ := p
      rw [hg] at h
      have h1 := ih st1 s1 st' s' h
      have h2 := genStep_points_length st s st1 s1 hg
      omega

/-- **C4**: running the point generation for `itr` iterations on a cell state
carrying the fixed 2-point seed `[(0,0), (0,0)]` yields a point list of
exactly `itr + 2` elements. -/
theorem genPoints_seed_length (itr : Nat) (st : HexState) (s : List Nat)
    (st' : HexState) (s' : List Nat) (hseed : st.points = initPoints)
    (h : genPoints itr st s = some (st', s')) :
    st'.points.length = itr + 2 := by
  have h1 := genPoints_points_length itr st s st' s' h
  rw [hseed] at h1
  simp [initPoints] at h1
  omega

/-- Witness for `genPoints_seed_length`: a concrete 2-iteration run on the
triangle cell. -/
theorem genPoints_seed_length_witness :
    ({ triHex with points := [(0, 0), (0, 0), (0, 0), (0, 0)] } : HexState).points.length
      = 2 + 2 :=
  genPoints_seed_length 2 triHex [0, 0]
    { triHex with points := [(0, 0), (0, 0), (0, 0), (0, 0)] } [] rfl (by decide)

/-- **C8**: point generation is a pure function of the cell state and of the
random stream: two runs from equal states with equal streams return identical
point sequences.  The command-line seed fully determines the stream of the
Python generator, so two runs with the same seed coincide. -/
theorem genPoints_deterministic (itr : Nat) (st₁ st₂ : HexState)
    (s₁ s₂ : List Nat) (hst : st₁ = st₂) (hs : s₁ = s₂) :
    genPoints itr st₁ s₁ = genPoints itr st₂ s₂ := by rw [hst, hs]

/-- Witness for `genPoints_deterministic`: the 5000-iteration triangle
scenario with a fixed stream. -/
theorem genPoints_deterministic_witness :
    genPoints 5000 triHex (List.range 5000) = genPoints 5000 triHex (List.range 5000) :=
  genPoints_deterministic 5000 triHex triHex (List.range 5000) (List.range 5000) rfl rfl

end Emergence

namespace Emergence

theorem sorta_comm (l r : Point) : sorta l r = sorta r l := by
  simp [sorta, abs_sub_comm]

theorem findSpot_not_colliding (coords : List Point) (prev : Point) :
    ∀ (s : List Nat) (c c' : Point) (s' : List Nat),
      findSpot coords prev c s = some (c', s') →
      coords.any (fun x => sorta x c') = false := by
  intro s
  induction s with
  | nil =>
    intro c c' s' h
    unfold findSpot at h
    split at h
    · simp at h
    · rename_i hnc
      simp only [Option.some.injEq, Prod.mk.injEq] at h
      rw [← h.1]
      simpa using hnc
  | cons d rest ih =>
    intro c c' s' h
    unfold findSpot at h
    split at h
    · exact ih (chooseNextSpot prev (d % 6)) c' s' h
    · rename_i hnc
      simp only [Option.some.injEq, Prod.mk.injEq] at h
      rw [← h.1]
      simpa using hnc

theorem findSpot_shape (coords : List Point) (prev : Point) :
    ∀ (s : List Nat) (c c' : Point) (s' : List Nat),
      findSpot coords prev c s = some (c', s') →
      (∃ k, k < 6 ∧ c = chooseNextSpot prev k) →
      ∃ k, k < 6 ∧ c' = chooseNextSpot prev k := by
  intro s
  induction s with
  | nil =>
    intro c c' s' h hc
    unfold findSpot at h
    split at h
    · simp at h
    · simp only [Option.some.injEq, Prod.mk.injEq] at h
      rw [← h.1]
      exact hc
  | cons d rest ih =>
    intro c c' s' h hc
    unfold findSpot at h
    split at h
    · exact ih (chooseNextSpot prev (d % 6)) c' s' h
        ⟨d % 6, Nat.mod_lt d (by norm_num), rfl⟩
    · simp only [Option.some.injEq, Prod.mk.injEq] at h
      rw [← h.1]
      exact hc

theorem planLoop_pairwise (width height : ℚ) :
    ∀ (n : Nat) (coords : List Point) (s : List Nat) (out : List Point) (s' : List Nat),
      planLoop width height n coords s = some (out, s') →
      coords.Pairwise (fun a b => sorta a b = false) →
      out.Pairwise (fun a b => sorta a b = false) := by
  intro n
  induction n with
  | zero =>
    intro coords s out s' h hp
    simp only [planLoop, Option.some.injEq, Prod.mk.injEq] at h
    rw [← h.1]
    exact hp
  | succ k ih =>
    intro coords s out s' h hp
    unfold planLoop at h
    split at h
    · simp at h
    · rename_i d rest
      split at h
      · simp at h
      · rename_i c s1 hfind
        have hnc := findSpot_not_colliding coords (coords.getLastD (0, 0)) rest
          (chooseNextSpot (coords.getLastD (0, 0)) (d % 6)) c s1 hfind
        have hp' : (coords ++ [c]).Pairwise (fun a b => sorta a b = false) := by
          rw [List.pairwise_append]
          refine ⟨hp, List.pairwise_singleton _ _, ?_⟩
          intro a ha b hb
          rw [List.mem_singleton] at hb
          subst hb
          have := List.any_eq_false.mp hnc a ha
          simpa using this
        split at h
        · simp only [Option.some.injEq, Prod.mk.injEq] at h
          rw [← h.1]
          exact hp'
        · exact ih (coords ++ [c]) s1 out s' h hp'

theorem planLoop_chain (width height : ℚ) :
    ∀ (n : Nat) (coords : List Point) (s : List Nat) (out : List Point) (s' : List Nat),
      planLoop width height n coords s = some (out, s') →
      coords ≠ [] → coords.Chain' PlacedStep → out.Chain' PlacedStep := by
  intro n
  induction n with
  | zero =>
    intro coords s out s' h hne hch
    simp only [planLoop, Option.some.injEq, Prod.mk.injEq] at h
    rw [← h.1]
    exact hch
  | succ k ih =>
    intro coords s out s' h hne hch
    unfold planLoop at h
    split at h
    · simp at h
    · rename_i d rest
      split at h
      · simp at h
      · rename_i c s1 hfind
        have hstep : PlacedStep (coords.getLastD (0, 0)) c := by
          refine findSpot_shape coords (coords.getLastD (0, 0)) rest
            (chooseNextSpot (coords.getLastD (0, 0)) (d % 6)) c s1 hfind ?_
          exact ⟨d % 6, Nat.mod_lt d (by norm_num), rfl⟩
        have hch' : (coords ++ [c]).Chain' PlacedStep := by
          rw [List.chain'_append]
          refine ⟨hch, List.chain'_singleton _, ?_⟩
          intro x hx y hy
          rw [List.getLast?_eq_getLast_of_ne_nil hne] at hx
          simp only [Option.mem_def, Option.some.injEq] at hx
          simp only [List.head?_cons, Option.mem_def, Option.some.injEq] at hy
          subst hx
          subst hy
          have hgl : coords.getLast hne = coords.getLastD (0, 0) := by
            rw [List.getLastD_eq_getLast?, List.getLast?_eq_getLast_of_ne_nil hne]
            rfl
          rw [hgl]
          exact hstep
        split at h
        · simp only [Option.some.injEq, Prod.mk.injEq] at h
          rw [← h.1]
          exact hch'
        · exact ih (coords ++ [c]) s1 out s' h (by simp) hch'

/-- **C2**: in every anchor sequence the placement loop produces (the seed
plus all accepted candidates), every pair of distinct anchors is separated:
no two anchors are simultaneously within 10 units of each other on both axes
(`sorta` evaluates to `false` on every pair of distinct indices). -/
theorem plan_anchors_separated (width height : ℚ) (seed : Point) (n : Nat)
    (s : List Nat) (coords : List Point) (s' : List Nat)
    (h : plan width height seed n s = some (coords, s'))
    (i j : Nat) (hi : i < coords.length) (hj : j < coords.length) (hij : i ≠ j) :
    sorta (coords.get ⟨i, hi⟩) (coords.get ⟨j, hj⟩) = false := by
  have hp : coords.Pairwise (fun a b => sorta a b = false) :=
    planLoop_pairwise width height n [seed] s coords s' h
      (List.pairwise_singleton _ _)
  have hg := List.pairwise_iff_get.mp hp
  rcases Nat.lt_or_ge i j with hlt | hge
  · exact hg ⟨i, hi⟩ ⟨j, hj⟩ hlt
  · have hlt : j < i := by omega
    rw [sorta_comm]
    exact hg ⟨j, hj⟩ ⟨i, hi⟩ hlt

set_option maxRecDepth 8000 in
theorem plan_anchors_separated_witness :
    sorta ((800 : ℚ), (400 : ℚ)) ((800 : ℚ), (650 : ℚ)) = false :=
  plan_anchors_separated 2000 1000 (800, 400) 1 [1] [(800, 400), (800, 650)] []
    (by decide) 0 1 (by decide) (by decide) (by decide)

/-- **C3** (amended): each anchor after the first equals
`intTuple(previous + cellDiameter · direction)` — that is, `chooseNextSpot`
of its predecessor — for one of the six fixed 60-degree-spaced directions;
because `intTuple` truncates both coordinates to integers, consecutive
anchors are only approximately, not exactly, `cellDiameter` apart (see
`plan_consecutive_distance_not_exact`). -/
theorem plan_consecutive_step (width height : ℚ) (seed : Point) (n : Nat)
    (s : List Nat) (coords : List Point) (s' : List Nat)
    (h : plan width height seed n s = some (coords, s'))
    (i : Nat) (hi : i + 1 < coords.length) :
    ∃ k, k < 6 ∧ coords.get ⟨i + 1, hi⟩
        = chooseNextSpot (coords.get ⟨i, Nat.lt_of_succ_lt hi⟩) k := by
  have hch : coords.Chain' PlacedStep :=
    planLoop_chain width height n [seed] s coords s' h (by simp)
      (List.chain'_singleton _)
  have hone := List.chain'_iff_get.mp hch i (by omega)
  exact hone

set_option maxRecDepth 8000 in
theorem plan_consecutive_step_witness :
    ∃ k, k < 6 ∧ ((800 : ℚ), (650 : ℚ))
        = chooseNextSpot ((800 : ℚ), (400 : ℚ)) k :=
  plan_consecutive_step 2000 1000 (800, 400) 1 [1] [(800, 400), (800, 650)] []
    (by decide) 0 (by decide)

set_option maxRecDepth 8000 in
/-- **C3** (counterexample): a concrete placement run whose two consecutive
anchors are NOT exactly `cellDiameter = 250` apart: the step in direction
`pi/6` lands at distance with square `216² + 125² = 62281 ≠ 62500 = 250²`,
because `intTuple` truncated `800 + 125·√3 = 1016.5…` down to `1016`. -/
theorem plan_consecutive_distance_not_exact :
    plan 2000 1000 (800, 400) 1 [0] = some ([(800, 400), (1016, 525)], [])
      ∧ (1016 - 800 : ℚ) * (1016 - 800) + (525 - 400 : ℚ) * (525 - 400)
          ≠ (250 : ℚ) * 250 :=
  ⟨by decide, by norm_num⟩

set_option maxRecDepth 8000 in
/-- **C7** (counterexample): with a drawn count of 1 (the
`minCount = maxCount = 1` configuration) the placement loop returns the seed
PLUS one appended anchor — a 2-element sequence, not `[seedAnchor]`: the
loop body appends its accepted candidate before any termination check. -/
theorem plan_count_one_not_singleton :
    plan 2000 1000 (800, 400) 1 [1] = some ([(800, 400), (800, 650)], [])
      ∧ ([((800 : ℚ), (400 : ℚ)), ((800 : ℚ), (650 : ℚ))] : List Point)
          ≠ [((800 : ℚ), (400 : ℚ))] :=
  ⟨by decide, by decide⟩

/-- **C7** (amended): with a drawn count of 1 the planner returns exactly
two anchors, the seed first plus one accepted candidate. -/
theorem plan_count_one_length (width height : ℚ) (seed : Point) (s : List Nat)
    (coords : List Point) (s' : List Nat)
    (h : plan width height seed 1 s = some (coords, s')) :
    coords.length = 2 ∧ coords.head? = some seed := by
  unfold plan planLoop at h
  split at h
  · simp at h
  · rename_i d rest
    split at h
    · simp at h
    · rename_i c s1 hfind
      split at h
      · simp only [Option.some.injEq, Prod.mk.injEq] at h
        rw [← h.1]
        constructor <;> simp
      · simp only [planLoop, Option.some.injEq, Prod.mk.injEq] at h
        rw [← h.1]
        constructor <;> simp

set_option maxRecDepth 8000 in
theorem plan_count_one_length_witness :
    ([((800 : ℚ), (400 : ℚ)), ((800 : ℚ), (650 : ℚ))] : List Point).length = 2
      ∧ ([((800 : ℚ), (400 : ℚ)), ((800 : ℚ), (650 : ℚ))] : List Point).head?
          = some ((800 : ℚ), (400 : ℚ)) :=
  plan_count_one_length 2000 1000 (800, 400) [1] [(800, 400), (800, 650)] []
    (by decide)

end Emergence

namespace Emergence

theorem rangeTo_length (c1 c2 : Color) (n : Nat) : (rangeTo c1 c2 n).length = n := by
  rw [rangeTo, List.length_map, List.length_range]

/-- **C10**: the palette lookup of `drawNext` is always in bounds: a gradient
produced by `genGradient` has exactly 255 colors, and the palette index
`int(coordinate) % 255` lies in `[0, 254]` for every rational coordinate —
negative coordinates included — whichever of the two coordinates the random
choice picks. -/
theorem genGradient_paletteIndex_in_bounds (d1 d2 : Nat) (rest : List Nat)
    (g : List Color) (s' : List Nat)
    (h : genGradient (d1 :: d2 :: rest) = some (g, s')) :
    g.length = 255 ∧ ∀ (p : Point) (choice : Nat),
      0 ≤ paletteIndex p choice ∧ paletteIndex p choice < (g.length : ℤ) := by
  have hlen : g.length = 255 := by
    simp only [genGradient, draw, Option.some.injEq, Prod.mk.injEq] at h
    rw [← h.1]
    exact rangeTo_length _ _ _
  refine ⟨hlen, ?_⟩
  intro p choice
  rw [hlen]
  unfold paletteIndex
  refine ⟨Int.emod_nonneg _ (by norm_num), ?_⟩
  exact Int.emod_lt_of_pos _ (by norm_num)

/-- Witness for `genGradient_paletteIndex_in_bounds`: the gradient drawn with
stream `[0, 1]` runs from the first to the second palette color. -/
theorem genGradient_paletteIndex_witness :
    (rangeTo ⟨1, 0, 0⟩ ⟨1, 165/255, 0⟩ 255).length = 255 :=
  (genGradient_paletteIndex_in_bounds 0 1 []
    (rangeTo ⟨1, 0, 0⟩ ⟨1, 165/255, 0⟩ 255) [] rfl).1

end Emergence

namespace Emergence

theorem isqrtAux_spec (n : Nat) :
    ∀ (fuel k : Nat), k * k ≤ n → n < (k + fuel + 1) * (k + fuel + 1) →
      isqrtAux n fuel k * isqrtAux n fuel k ≤ n
        ∧ n < (isqrtAux n fuel k + 1) * (isqrtAux n fuel k + 1) := by
  intro fuel
  induction fuel with
  | zero =>
    intro k hk hub
    simpa [isqrtAux] using ⟨hk, hub⟩
  | succ m ih =>
    intro k hk hub
    simp only [isqrtAux]
    split
    · rename_i hle
      refine ih (k + 1) hle ?_
      have he : k + 1 + m + 1 = k + (m + 1) + 1 := by omega
      rw [he]
      exact hub
    · rename_i hgt
      exact ⟨hk, Nat.lt_of_not_le hgt⟩

/-- Characterisation of `isqrt`: the largest integer whose square is at most
`n`. -/
theorem isqrt_spec (n : Nat) :
    isqrt n * isqrt n ≤ n ∧ n < (isqrt n + 1) * (isqrt n + 1) := by
  refine isqrtAux_spec n n 0 (by simp) ?_
  nlinarith [Nat.lt_succ_self n]

/-- Key irrationality fact behind `Q3.floor`: `3·m²` is never a nonzero
perfect square. -/
theorem three_mul_sq_ne_sq (m t : Nat) (hm : 0 < m) : 3 * m ^ 2 ≠ t * t := by
  intro heq
  have h3 : Nat.Prime 3 := by norm_num
  have hirr : Irrational (Real.sqrt 3) := by
    simpa using h3.irrational_sqrt
  apply hirr
  refine ⟨(t : ℚ) / (m : ℚ), ?_⟩
  have hm0 : ((m : ℕ) : ℝ) ≠ 0 := Nat.cast_ne_zero.mpr hm.ne'
  have h0 : (0:ℝ) ≤ Real.sqrt 3 * m := by positivity
  have h4 : (0:ℝ) ≤ (t:ℝ) := by positivity
  have h2 : (Real.sqrt 3 * m) ^ 2 = ((t:ℝ)) ^ 2 := by
    rw [mul_pow, Real.sq_sqrt (by norm_num : (0:ℝ) ≤ 3)]
    have hc := congrArg (fun z : ℕ => (z : ℝ)) heq
    push_cast at hc
    nlinarith [hc]
  have hkey : Real.sqrt 3 * m = t := by
    have hfac : (Real.sqrt 3 * m - t) * (Real.sqrt 3 * m + t) = 0 := by
      linear_combination h2
    rcases mul_eq_zero.mp hfac with hc | hc
    · linarith
    · linarith
  push_cast
  rw [div_eq_iff hm0]
  linarith [hkey]

/-- From `a² ≤ b²` with both sides nonnegative, conclude `a ≤ b`. -/
theorem real_le_of_sq_le_sq (a b : ℝ) (ha : 0 ≤ a) (hb : 0 ≤ b)
    (h : a ^ 2 ≤ b ^ 2) : a ≤ b := by
  calc a = Real.sqrt (a ^ 2) := (Real.sqrt_sq ha).symm
  _ ≤ Real.sqrt (b ^ 2) := Real.sqrt_le_sqrt h
  _ = b := Real.sqrt_sq hb

/-- From `a² < b²` with both sides nonnegative, conclude `a < b`. -/
theorem real_lt_of_sq_lt_sq (a b : ℝ) (ha : 0 ≤ a) (hb : 0 ≤ b)
    (h : a ^ 2 < b ^ 2) : a < b := by
  calc a = Real.sqrt (a ^ 2) := (Real.sqrt_sq ha).symm
  _ < Real.sqrt (b ^ 2) := Real.sqrt_lt_sqrt (by positivity) h
  _ = b := Real.sqrt_sq hb

/-- Integer bounds of the floor division by a positive divisor. -/
theorem fdiv_bounds (F D : ℤ) (hD : 0 < D) :
    F.fdiv D * D ≤ F ∧ F < F.fdiv D * D + D := by
  rw [Int.fdiv_eq_ediv F hD.le]
  have h1 := Int.ediv_add_emod F D
  rw [mul_comm] at h1
  have h2 := Int.emod_nonneg F hD.ne'
  have h3 := Int.emod_lt_of_pos F hD
  constructor
  · linarith
  · linarith

theorem Q3.floor_bounds (x : Q3) :
    ((x.floor : ℤ) : ℝ) ≤ x.toReal ∧ x.toReal < ((x.floor : ℤ) : ℝ) + 1 := by
  have hda : (0:ℤ) < (x.a.den : ℤ) := by exact_mod_cast x.a.pos
  have hdb : (0:ℤ) < (x.b.den : ℤ) := by exact_mod_cast x.b.pos
  have hD : (0:ℤ) < (x.a.den : ℤ) * (x.b.den : ℤ) := mul_pos hda hdb
  have hKspec := isqrt_spec (3 * (x.b.num.natAbs * x.a.den) ^ 2)
  set m : ℕ := x.b.num.natAbs * x.a.den with hm
  set s : ℕ := isqrt (3 * m ^ 2) with hs
  set M : ℤ := x.a.num * (x.b.den : ℤ) with hM
  set D : ℤ := (x.a.den : ℤ) * (x.b.den : ℤ) with hDdef
  have hDR : (0:ℝ) < (D : ℝ) := by exact_mod_cast hD
  have hsq3 : Real.sqrt 3 ^ 2 = 3 := Real.sq_sqrt (by norm_num)
  have hdaR : ((x.a.den : ℕ) : ℝ) ≠ 0 :=
    Nat.cast_ne_zero.mpr x.a.pos.ne'
  have hdbR : ((x.b.den : ℕ) : ℝ) ≠ 0 :=
    Nat.cast_ne_zero.mpr x.b.pos.ne'
  have hval : x.toReal
      = ((M : ℝ) + (x.b.num : ℝ) * (x.a.den : ℝ) * Real.sqrt 3) / (D : ℝ) := by
    rw [Q3.toReal, Rat.cast_def, Rat.cast_def, hM, hDdef]
    push_cast
    field_simp
    ring
  have hm2 : ((m : ℝ) * Real.sqrt 3) ^ 2 = 3 * (m : ℝ) ^ 2 := by
    rw [mul_pow, hsq3]; ring
  have hr0 : (0:ℝ) ≤ (m : ℝ) * Real.sqrt 3 := by positivity
  have hsle : (s : ℝ) ≤ (m : ℝ) * Real.sqrt 3 := by
    refine real_le_of_sq_le_sq _ _ (Nat.cast_nonneg s) hr0 ?_
    rw [hm2]
    have h1 : ((s * s : ℕ) : ℝ) ≤ ((3 * m ^ 2 : ℕ) : ℝ) := by exact_mod_cast hKspec.1
    push_cast at h1
    nlinarith [h1]
  have hslt : (m : ℝ) * Real.sqrt 3 < (s : ℝ) + 1 := by
    refine real_lt_of_sq_lt_sq _ _ hr0 (by positivity) ?_
    rw [hm2]
    have h1 : ((3 * m ^ 2 : ℕ) : ℝ) < (((s + 1) * (s + 1) : ℕ) : ℝ) := by
      exact_mod_cast hKspec.2
    push_cast at h1
    nlinarith [h1]
  rcases le_or_lt 0 x.b.num with hbn | hbn
  · -- nonnegative b : the value is (M + m·√3)/D and the floor is (M+s).fdiv D
    have hE : (x.b.num : ℝ) * (x.a.den : ℝ) * Real.sqrt 3
        = (m : ℝ) * Real.sqrt 3 := by
      rw [hm]
      push_cast [Int.cast_natAbs,
        abs_of_nonneg (show (0:ℝ) ≤ (x.b.num : ℝ) by exact_mod_cast hbn)]
      ring
    have hfl : x.floor = (M + (s : ℤ)).fdiv D := by
      rw [Q3.floor, if_pos hbn]
    obtain ⟨hlo, hhi⟩ := fdiv_bounds (M + (s : ℤ)) D hD
    have hhi1 : M + (s : ℤ) + 1 ≤ (M + (s : ℤ)).fdiv D * D + D := hhi
    have hloR : ((M + (s : ℤ)).fdiv D : ℝ) * (D : ℝ) ≤ (M : ℝ) + (s : ℝ) := by
      exact_mod_cast hlo
    have hhiR : (M : ℝ) + (s : ℝ) + 1 ≤ ((M + (s : ℤ)).fdiv D : ℝ) * (D : ℝ) + (D : ℝ) := by
      exact_mod_cast hhi1
    rw [hfl, hval, hE]
    constructor
    · rw [le_div_iff hDR]
      linarith [hsle]
    · rw [div_lt_iff hDR]
      nlinarith [hslt]
  · -- negative b : the value is (M − m·√3)/D and the floor is (M−s−1).fdiv D
    have hmpos : 0 < m := by
      rw [hm]
      have h0 : 0 < x.b.num.natAbs := Int.natAbs_pos.mpr hbn.ne
      exact Nat.mul_pos h0 x.a.pos
    have hsltq : (s : ℝ) < (m : ℝ) * Real.sqrt 3 := by
      refine real_lt_of_sq_lt_sq _ _ (Nat.cast_nonneg s) hr0 ?_
      rw [hm2]
      have hne : s * s ≠ 3 * m ^ 2 := fun hcontra =>
        three_mul_sq_ne_sq m s hmpos hcontra.symm
      have h1 : ((s * s : ℕ) : ℝ) < ((3 * m ^ 2 : ℕ) : ℝ) := by
        exact_mod_cast lt_of_le_of_ne hKspec.1 hne
      push_cast at h1
      nlinarith [h1]
    have hE : (x.b.num : ℝ) * (x.a.den : ℝ) * Real.sqrt 3
        = -((m : ℝ) * Real.sqrt 3) := by
      rw [hm]
      push_cast [Int.cast_natAbs,
        abs_of_neg (show (x.b.num : ℝ) < 0 by exact_mod_cast hbn)]
      ring
    have hfl : x.floor = (M - (s : ℤ) - 1).fdiv D := by
      rw [Q3.floor, if_neg (not_le.mpr hbn)]
    obtain ⟨hlo, hhi⟩ := fdiv_bounds (M - (s : ℤ) - 1) D hD
    have hhi1 : M - (s : ℤ) ≤ (M - (s : ℤ) - 1).fdiv D * D + D := by
      have h := Int.lt_iff_add_one_le.mp hhi
      linarith
    have hloR : ((M - (s : ℤ) - 1).fdiv D : ℝ) * (D : ℝ)
        ≤ (M : ℝ) - (s : ℝ) - 1 := by
      exact_mod_cast hlo
    have hhiR : (M : ℝ) - (s : ℝ)
        ≤ ((M - (s : ℤ) - 1).fdiv D : ℝ) * (D : ℝ) + (D : ℝ) := by
      exact_mod_cast hhi1
    rw [hfl, hval, hE]
    constructor
    · rw [le_div_iff hDR]
      linarith [hslt]
    · rw [div_lt_iff hDR]
      nlinarith [hsltq]

/-- Correctness of `Q3.floor`, lower bound: it is at most the real number
`a + b·√3` the `Q3` value denotes. -/
theorem Q3.floor_le (x : Q3) : ((x.floor : ℤ) : ℝ) ≤ x.toReal :=
  (Q3.floor_bounds x).1

/-- Correctness of `Q3.floor`, upper bound: the real number `a + b·√3` is
less than the floor plus one. -/
theorem Q3.lt_floor_add_one (x : Q3) : x.toReal < ((x.floor : ℤ) : ℝ) + 1 :=
  (Q3.floor_bounds x).2


/-- The negation of a `Q3` value denotes the negated real number. -/
theorem Q3.toReal_neg (x : Q3) : (Q3.mk (-x.a) (-x.b)).toReal = -x.toReal := by
  simp only [Q3.toReal]
  push_cast
  ring

/-- Correctness of `Q3.trunc` against the real number it denotes: truncation
toward zero, exactly as the Python builtin `int()` — the floor for
nonnegative values and the ceiling for negative ones. -/
theorem Q3.trunc_spec (x : Q3) :
    (0 ≤ x.toReal →
      ((x.trunc : ℤ) : ℝ) ≤ x.toReal ∧ x.toReal < ((x.trunc : ℤ) : ℝ) + 1)
    ∧ (x.toReal < 0 →
      ((x.trunc : ℤ) : ℝ) - 1 < x.toReal ∧ x.toReal ≤ ((x.trunc : ℤ) : ℝ)) := by
  have hfb := Q3.floor_bounds x
  have hnb := Q3.floor_bounds (Q3.mk (-x.a) (-x.b))
  rw [Q3.toReal_neg] at hnb
  unfold Q3.trunc
  split
  · rename_i hpos
    have hvpos : (0:ℝ) ≤ x.toReal := le_trans (by exact_mod_cast hpos) hfb.1
    exact ⟨fun _ => ⟨hfb.1, hfb.2⟩, fun hneg => absurd hvpos (not_le.mpr hneg)⟩
  · rename_i hneg'
    push_neg at hneg'
    have hvneg : x.toReal < 0 := by
      have h1 : ((x.floor : ℤ) : ℝ) + 1 ≤ 0 := by
        exact_mod_cast Int.lt_iff_add_one_le.mp hneg'
      linarith [hfb.2]
    constructor
    · intro hge
      exact absurd hvneg (not_lt.mpr hge)
    · intro hv
      push_cast
      constructor
      · linarith [hnb.2]
      · linarith [hnb.1]

end Emergence
